import Mathlib

/-!
Shallow embedding of the document search engine in src/document_search.py:
text normalization, index construction, TF-IDF scoring and the three query
modes.  Python dicts are modelled as insertion-ordered association lists,
Python sets as duplicate-free lists, floats as real numbers and math.log as
Real.log.  Iteration over a Python set (whose order is unspecified) is
modelled by a deterministic insertion-order list; no claim below depends on
tie order among equal scores.
-/

/-- Association-list lookup, modelling Python dict access by key. -/
def lookup {α : Type} : List (String × α) → String → Option α
  | [], _ => none
  | (k, v) :: rest, key => if k = key then some v else lookup rest key

/-- Dict access with a default, modelling dict.get(key, default). -/
def lookupD {α : Type} (l : List (String × α)) (key : String) (d : α) : α :=
  (lookup l key).getD d

/-- Dict assignment: replaces the value in place if the key exists,
otherwise appends the new binding (Python dicts keep insertion order). -/
def setKey {α : Type} : List (String × α) → String → α → List (String × α)
  | [], key, v => [(key, v)]
  | (k, w) :: rest, key, v =>
      if k = key then (key, v) :: rest else (k, w) :: setKey rest key v

/-- Python set.add on a duplicate-free list. -/
def pyAdd (l : List String) (x : String) : List String :=
  if x ∈ l then l else l ++ [x]

/-- Python set union (the or-assignment operator) on duplicate-free lists. -/
def listUnion (a b : List String) : List String :=
  a ++ b.filter (fun x => decide (x ∉ a))

/-- Python list slicing l[:k], including the negative-k case, where the
last -k elements are dropped. -/
def pyTake {α : Type} (k : Int) (l : List α) : List α :=
  if 0 ≤ k then l.take k.toNat else l.take (l.length - (-k).toNat)

/-- Helper for whitespace splitting; acc holds the current word reversed. -/
def pySplitAux : List Char → List Char → List (List Char)
  | [], acc => if acc = [] then [] else [acc.reverse]
  | c :: rest, acc =>
      if c.isWhitespace then
        if acc = [] then pySplitAux rest [] else acc.reverse :: pySplitAux rest []
      else pySplitAux rest (c :: acc)

/-- Python str.split() with no arguments: split on whitespace runs,
dropping empty words. -/
def pySplit (s : List Char) : List (List Char) := pySplitAux s []

/-- Does the first list occur as an initial segment of the second? -/
def headMatches : List Char → List Char → Bool
  | [], _ => true
  | _ :: _, [] => false
  | a :: as, b :: bs => a = b && headMatches as bs

/-- Helper for pyCount; the counter argument is the number of characters
still covered by the previous match (matches must not overlap). -/
def pyCountAux (needle : List Char) : List Char → Nat → Nat
  | [], _ => 0
  | _ :: rest, skip + 1 => pyCountAux needle rest skip
  | c :: rest, 0 =>
      if headMatches needle (c :: rest) then pyCountAux needle rest (needle.length - 1) + 1
      else pyCountAux needle rest 0

/-- Python str.count: non-overlapping occurrences of needle in hay. -/
def pyCount (hay needle : List Char) : Nat :=
  if needle = [] then hay.length + 1 else pyCountAux needle hay 0

/-- Characters kept by the substitution of the regex matching characters
other than lowercase letters, digits and whitespace (applied after
lowercasing in preprocess_text); all others become a space. -/
def isKept (c : Char) : Bool :=
  (decide ('a' ≤ c) && decide (c ≤ 'z')) || (decide ('0' ≤ c) && decide (c ≤ '9')) ||
    c.isWhitespace

abbrev Metadata := List (String × String)

/-- The built-in stopword set from the engine constructor (the source
literal repeats the word the; a set holds it once). -/
def defaultStopwords : List String :=
  ["a", "an", "and", "are", "as", "at", "be", "by", "for", "from",
   "has", "he", "in", "is", "it", "its", "of", "on", "that", "the",
   "to", "was", "will", "with", "this", "but", "they", "have",
   "had", "what", "when", "where", "who", "which", "why", "how"]

/-- The mutable state of DocumentSearchEngine. -/
structure Engine where
  documents : List (String × String)
  doc_metadata : List (String × Metadata)
  inverted_index : List (String × List String)
  term_frequencies : List (String × List (String × Nat))
  doc_frequencies : List (String × Nat)
  doc_lengths : List (String × Nat)
  stopwords : List String

/-- The engine constructor with a given stopword set (the built-in default
or one loaded from a file). -/
def mkEngine (sw : List String) : Engine :=
  { documents := [], doc_metadata := [], inverted_index := [],
    term_frequencies := [], doc_frequencies := [], doc_lengths := [],
    stopwords := sw }

/-- DocumentSearchEngine.preprocess_text: lowercase, replace characters
other than lowercase letters, digits and whitespace by a space, split on
whitespace, drop stopwords and tokens of length at most 2. -/
def preprocess_text (stopwords : List String) (text : String) : List String :=
  let lowered := text.data.map Char.toLower
  let cleaned := lowered.map (fun c => if isKept c then c else ' ')
  let tokens := (pySplit cleaned).map (fun w => String.mk w)
  tokens.filter (fun t => decide (t ∉ stopwords) && decide (2 < t.length))

/-- Increment a count table at a key, with missing keys counting as 0.
This is both one step of collections.Counter and the increment of the
document-frequency defaultdict. -/
def bumpCount (acc : List (String × Nat)) (t : String) : List (String × Nat) :=
  setKey acc t (lookupD acc t 0 + 1)

/-- collections.Counter over the token list (insertion-ordered counts). -/
def counter (tokens : List String) : List (String × Nat) :=
  tokens.foldl bumpCount []

/-- Add a document id to the postings set of a term in the inverted-index
defaultdict. -/
def addPosting (doc_id : String) (ii : List (String × List String)) (t : String) :
    List (String × List String) :=
  setKey ii t (pyAdd (lookupD ii t []) doc_id)

/-- The indexing loop of add_document: for each distinct term of the new
document, add the document id to the term's postings set and increment the
term's document frequency. -/
def indexTerms (e : Engine) (doc_id : String) (unique_terms : List String) : Engine :=
  unique_terms.foldl
    (fun e t =>
      { e with
        inverted_index := addPosting doc_id e.inverted_index t,
        doc_frequencies := bumpCount e.doc_frequencies t })
    e

/-- DocumentSearchEngine.add_document.  Note the absence of any retraction
step for a doc_id that is already indexed: the old tables are overwritten
per document, but the inverted index and the document frequencies are only
ever grown. -/
def add_document (e : Engine) (doc_id content : String) (metadata : Metadata) : Engine :=
  let tokens := preprocess_text e.stopwords content
  let e1 :=
    { e with
      documents := setKey e.documents doc_id content,
      doc_metadata := setKey e.doc_metadata doc_id metadata,
      term_frequencies := setKey e.term_frequencies doc_id (counter tokens),
      doc_lengths := setKey e.doc_lengths doc_id tokens.length }
  indexTerms e1 doc_id tokens.dedup

/-- Index a list of (id, content) pairs into a fresh engine with the
default stopword set. -/
def buildEngine (docs : List (String × String)) : Engine :=
  docs.foldl (fun e p => add_document e p.1 p.2 []) (mkEngine defaultStopwords)

/-- inverted_index.get(term, set()). -/
def postingsOf (e : Engine) (term : String) : List String :=
  lookupD e.inverted_index term []

/-- doc_metadata.get(doc_id, empty dict). -/
def metaOf (e : Engine) (doc_id : String) : Metadata :=
  lookupD e.doc_metadata doc_id []

/-- Raw term count of a term in a document, 0 if absent. -/
def term_frequency (e : Engine) (term doc_id : String) : Nat :=
  lookupD (lookupD e.term_frequencies doc_id []) term 0

/-- DocumentSearchEngine.calculate_tf_idf.  The first guard is the
membership test of the source (doc_id not in term_frequencies, or term
not in its table); the second is the zero-document-frequency guard.  The
source computes tf before the second guard, which changes nothing. -/
noncomputable def calculate_tf_idf (e : Engine) (term doc_id : String) : ℝ :=
  if lookup e.term_frequencies doc_id = none
      ∨ lookup (lookupD e.term_frequencies doc_id []) term = none then 0
  else if lookupD e.doc_frequencies term 0 = 0 then 0
  else ((term_frequency e term doc_id : ℝ) / ((lookupD e.doc_lengths doc_id 0 : ℕ) : ℝ))
      * Real.log ((e.documents.length : ℝ) / ((lookupD e.doc_frequencies term 0 : ℕ) : ℝ))

/-- AND mode candidates: intersect the postings of every query term,
starting from the set of all document ids. -/
def andCandidates (e : Engine) (query_terms : List String) : List String :=
  query_terms.foldl
    (fun cs t => cs.filter (fun d => decide (d ∈ postingsOf e t)))
    (e.documents.map Prod.fst)

/-- OR mode candidates: union of the postings of every query term. -/
def orCandidates (e : Engine) (query_terms : List String) : List String :=
  query_terms.foldl (fun cs t => listUnion cs (postingsOf e t)) []

/-- Aggregate TF-IDF score of a document, summed over the query-term list
exactly as the scoring loop of search does. -/
noncomputable def tfSum (e : Engine) (query_terms : List String) (doc_id : String) : ℝ :=
  (query_terms.map (fun t => calculate_tf_idf e t doc_id)).sum

/-- The scoring loop of search: keep the candidates with positive score. -/
noncomputable def scoreResults (e : Engine) (query_terms : List String)
    (cands : List String) : List (String × ℝ × Metadata) :=
  cands.filterMap (fun d =>
    if 0 < tfSum e query_terms d then some (d, tfSum e query_terms d, metaOf e d)
    else none)

/-- One insertion step of the stable descending sort on scores. -/
noncomputable def insertDesc (x : String × ℝ × Metadata) :
    List (String × ℝ × Metadata) → List (String × ℝ × Metadata)
  | [] => [x]
  | y :: ys => if y.2.1 < x.2.1 then x :: y :: ys else y :: insertDesc x ys

/-- list.sort with score key and reverse flag: stable descending sort. -/
noncomputable def sortDesc (l : List (String × ℝ × Metadata)) :
    List (String × ℝ × Metadata) :=
  l.foldl (fun acc x => insertDesc x acc) []

/-- The document loop of _phrase_search: count non-overlapping literal
occurrences of the lowercased phrase in the lowercased raw content; score
is count over the whitespace word count of the raw content. -/
noncomputable def phraseHits (e : Engine) (phrase : String) :
    List (String × ℝ × Metadata) :=
  e.documents.filterMap (fun p =>
    let cnt := pyCount (p.2.data.map Char.toLower) (phrase.data.map Char.toLower)
    if 0 < cnt then
      some (p.1, (cnt : ℝ) / ((pySplit p.2.data).length : ℝ), metaOf e p.1)
    else none)

/-- DocumentSearchEngine._phrase_search. -/
noncomputable def phrase_search (e : Engine) (phrase : String) (top_k : Int) :
    List (String × ℝ × Metadata) :=
  pyTake top_k (sortDesc (phraseHits e phrase))

/-- DocumentSearchEngine.search.  The empty-query guard runs before the
mode dispatch, so it also covers PHRASE mode. -/
noncomputable def search (e : Engine) (query : String) (mode : String) (top_k : Int) :
    List (String × ℝ × Metadata) :=
  let query_terms := preprocess_text e.stopwords query
  if query_terms = [] then []
  else if mode = "AND" then
    pyTake top_k (sortDesc (scoreResults e query_terms (andCandidates e query_terms)))
  else if mode = "PHRASE" then phrase_search e query top_k
  else pyTake top_k (sortDesc (scoreResults e query_terms (orCandidates e query_terms)))

/-- The sorted, untruncated candidate list of search: what search returns
just before slicing to top_k. -/
noncomputable def fullResults (e : Engine) (query : String) (mode : String) :
    List (String × ℝ × Metadata) :=
  let query_terms := preprocess_text e.stopwords query
  if query_terms = [] then []
  else if mode = "AND" then sortDesc (scoreResults e query_terms (andCandidates e query_terms))
  else if mode = "PHRASE" then sortDesc (phraseHits e query)
  else sortDesc (scoreResults e query_terms (orCandidates e query_terms))

/-- Sum of term_frequency over the whole vocabulary for one document. -/
def sumTF (e : Engine) (doc_id : String) : Nat :=
  ((e.inverted_index.map Prod.fst).map (fun t => term_frequency e t doc_id)).sum

/-! ### Association-list lemmas -/

theorem lookup_setKey_self {α : Type} (l : List (String × α)) (k : String) (v : α) :
    lookup (setKey l k v) k = some v := by
  induction l with
  | nil => simp [setKey, lookup]
  | cons p rest ih =>
    obtain ⟨k', w⟩ := p
    by_cases h : k' = k
    · simp [setKey, h, lookup]
    · simp [setKey, h, lookup, ih]

theorem lookup_setKey_ne {α : Type} (l : List (String × α)) (k k' : String) (v : α)
    (h : k' ≠ k) : lookup (setKey l k v) k' = lookup l k' := by
  induction l with
  | nil => simp [setKey, lookup, Ne.symm h]
  | cons p rest ih =>
    obtain ⟨k₀, w⟩ := p
    by_cases h0 : k₀ = k
    · subst h0
      simp [setKey, lookup, Ne.symm h]
    · simp [setKey, h0, lookup, ih]

theorem lookup_isSome_iff {α : Type} (l : List (String × α)) (k : String) :
    (lookup l k).isSome ↔ k ∈ l.map Prod.fst := by
  induction l with
  | nil => simp [lookup]
  | cons p rest ih =>
    obtain ⟨k₀, w⟩ := p
    by_cases h : k₀ = k
    · subst h; simp [lookup]
    · simp [lookup, h, ih, Ne.symm h, eq_comm]

theorem map_fst_setKey {α : Type} (l : List (String × α)) (k : String) (v : α) :
    (setKey l k v).map Prod.fst =
      if k ∈ l.map Prod.fst then l.map Prod.fst else l.map Prod.fst ++ [k] := by
  induction l with
  | nil => simp [setKey]
  | cons p rest ih =>
    obtain ⟨k₀, w⟩ := p
    by_cases h : k₀ = k
    · subst h; simp [setKey]
    · by_cases hm : k ∈ rest.map Prod.fst <;>
        simp [setKey, h, ih, hm, Ne.symm h, eq_comm]

theorem mem_keys_setKey {α : Type} (l : List (String × α)) (k : String) (v : α)
    (a : String) :
    a ∈ (setKey l k v).map Prod.fst ↔ a = k ∨ a ∈ l.map Prod.fst := by
  rw [map_fst_setKey]
  by_cases h : k ∈ l.map Prod.fst
  · simp only [h, if_pos]
    constructor
    · exact fun hh => Or.inr hh
    · rintro (rfl | hh)
      · exact h
      · exact hh
  · simp [h, or_comm]

theorem nodup_keys_setKey {α : Type} (l : List (String × α)) (k : String) (v : α)
    (h : (l.map Prod.fst).Nodup) : ((setKey l k v).map Prod.fst).Nodup := by
  rw [map_fst_setKey]
  by_cases hm : k ∈ l.map Prod.fst
  · simpa [hm] using h
  · simp only [hm, if_neg, not_false_iff]
    refine h.append (List.nodup_singleton k) ?_
    intro a ha hk
    rcases List.mem_singleton.mp hk with rfl
    exact hm ha

/-! ### pyTake lemmas -/

theorem pyTake_nil {α : Type} (k : Int) : pyTake k ([] : List α) = [] := by
  by_cases h : 0 ≤ k <;> simp [pyTake, h]

theorem pyTake_zero {α : Type} (l : List α) : pyTake 0 l = [] := by
  simp [pyTake]

theorem pyTake_of_length_le {α : Type} (k : Int) (l : List α)
    (h : (l.length : Int) ≤ k) : pyTake k l = l := by
  have h0 : (0 : Int) ≤ k := le_trans (by positivity) h
  have hlen : l.length ≤ k.toNat := by omega
  simp [pyTake, h0, List.take_of_length_le hlen]

theorem mem_of_mem_pyTake {α : Type} {k : Int} {l : List α} {a : α}
    (h : a ∈ pyTake k l) : a ∈ l := by
  unfold pyTake at h
  by_cases h0 : 0 ≤ k
  · simp only [h0, if_pos] at h
    exact List.take_subset _ _ h
  · simp only [h0, if_neg, not_false_iff] at h
    exact List.take_subset _ _ h

/-! ### Candidate-set lemmas -/

theorem mem_listUnion (a b : List String) (x : String) :
    x ∈ listUnion a b ↔ x ∈ a ∨ x ∈ b := by
  simp only [listUnion, List.mem_append, List.mem_filter, decide_eq_true_eq]
  by_cases h : x ∈ a <;> simp [h]

theorem mem_orCandidates (e : Engine) (qts : List String) (d : String) :
    d ∈ orCandidates e qts ↔ ∃ t ∈ qts, d ∈ postingsOf e t := by
  have aux : ∀ (ts : List String) (init : List String),
      d ∈ ts.foldl (fun cs t => listUnion cs (postingsOf e t)) init ↔
        d ∈ init ∨ ∃ t ∈ ts, d ∈ postingsOf e t := by
    intro ts
    induction ts with
    | nil => simp
    | cons t rest ih =>
      intro init
      simp only [List.foldl_cons, ih, mem_listUnion, List.mem_cons]
      constructor
      · rintro ((h | h) | ⟨u, hu, hd⟩)
        · exact Or.inl h
        · exact Or.inr ⟨t, Or.inl rfl, h⟩
        · exact Or.inr ⟨u, Or.inr hu, hd⟩
      · rintro (h | ⟨u, (rfl | hu), hd⟩)
        · exact Or.inl (Or.inl h)
        · exact Or.inl (Or.inr hd)
        · exact Or.inr ⟨u, hu, hd⟩
  simpa using aux qts []

theorem mem_andCandidates (e : Engine) (qts : List String) (d : String) :
    d ∈ andCandidates e qts ↔
      d ∈ e.documents.map Prod.fst ∧ ∀ t ∈ qts, d ∈ postingsOf e t := by
  have aux : ∀ (ts : List String) (init : List String),
      d ∈ ts.foldl (fun cs t => cs.filter (fun x => decide (x ∈ postingsOf e t))) init ↔
        d ∈ init ∧ ∀ t ∈ ts, d ∈ postingsOf e t := by
    intro ts
    induction ts with
    | nil => simp
    | cons t rest ih =>
      intro init
      simp only [List.foldl_cons, ih, List.mem_filter, decide_eq_true_eq, List.mem_cons]
      constructor
      · rintro ⟨⟨hi, ht⟩, hall⟩
        refine ⟨hi, ?_⟩
        rintro u (rfl | hu)
        · exact ht
        · exact hall u hu
      · rintro ⟨hi, hall⟩
        exact ⟨⟨hi, hall t (Or.inl rfl)⟩, fun u hu => hall u (Or.inr hu)⟩
  exact aux qts _

/-! ### Sorting and scoring lemmas -/

theorem mem_insertDesc (x a : String × ℝ × Metadata) (l : List (String × ℝ × Metadata)) :
    a ∈ insertDesc x l ↔ a = x ∨ a ∈ l := by
  induction l with
  | nil => simp [insertDesc]
  | cons y ys ih =>
    by_cases h : y.2.1 < x.2.1
    · simp [insertDesc, h]
    · simp only [insertDesc, h, if_neg, not_false_iff, List.mem_cons, ih]
      tauto

theorem length_insertDesc (x : String × ℝ × Metadata) (l : List (String × ℝ × Metadata)) :
    (insertDesc x l).length = l.length + 1 := by
  induction l with
  | nil => simp [insertDesc]
  | cons y ys ih =>
    by_cases h : y.2.1 < x.2.1 <;> simp [insertDesc, h, ih]

theorem mem_sortDesc (l : List (String × ℝ × Metadata)) (a : String × ℝ × Metadata) :
    a ∈ sortDesc l ↔ a ∈ l := by
  have aux : ∀ (ts : List (String × ℝ × Metadata)) (acc : List (String × ℝ × Metadata)),
      a ∈ ts.foldl (fun acc x => insertDesc x acc) acc ↔ a ∈ acc ∨ a ∈ ts := by
    intro ts
    induction ts with
    | nil => simp
    | cons x xs ih =>
      intro acc
      simp only [List.foldl_cons, ih, mem_insertDesc, List.mem_cons]
      tauto
  simpa [sortDesc] using aux l []

theorem length_sortDesc (l : List (String × ℝ × Metadata)) :
    (sortDesc l).length = l.length := by
  have aux : ∀ (ts acc : List (String × ℝ × Metadata)),
      (ts.foldl (fun acc x => insertDesc x acc) acc).length = acc.length + ts.length := by
    intro ts
    induction ts with
    | nil => simp
    | cons x xs ih =>
      intro acc
      simp only [List.foldl_cons, ih, length_insertDesc, List.length_cons]
      omega
  simpa [sortDesc] using aux l []

theorem sortDesc_nil : sortDesc [] = [] := rfl

theorem sortDesc_singleton (x : String × ℝ × Metadata) : sortDesc [x] = [x] := rfl

theorem scoreResults_nil (e : Engine) (qts : List String) :
    scoreResults e qts [] = [] := rfl

theorem scoreResults_cons (e : Engine) (qts : List String) (d : String)
    (ds : List String) :
    scoreResults e qts (d :: ds) =
      if 0 < tfSum e qts d then
        (d, tfSum e qts d, metaOf e d) :: scoreResults e qts ds
      else scoreResults e qts ds := by
  by_cases h : 0 < tfSum e qts d <;> simp [scoreResults, List.filterMap_cons, h]

theorem mem_scoreResults (e : Engine) (qts : List String) (cs : List String)
    (x : String × ℝ × Metadata) :
    x ∈ scoreResults e qts cs ↔
      ∃ d, d ∈ cs ∧ 0 < tfSum e qts d ∧ x = (d, tfSum e qts d, metaOf e d) := by
  simp only [scoreResults, List.mem_filterMap]
  constructor
  · rintro ⟨d, hd, hx⟩
    by_cases h : 0 < tfSum e qts d
    · rw [if_pos h] at hx
      exact ⟨d, hd, h, (Option.some_injective _ hx).symm⟩
    · rw [if_neg h] at hx
      exact absurd hx (by simp)
  · rintro ⟨d, hd, h, rfl⟩
    exact ⟨d, hd, by rw [if_pos h]⟩

theorem scoreResults_eq_nil (e : Engine) (qts : List String) (cs : List String)
    (h : ∀ d ∈ cs, tfSum e qts d = 0) : scoreResults e qts cs = [] := by
  rw [scoreResults, List.filterMap_eq_nil_iff]
  intro d hd
  rw [h d hd]
  simp

/-! ### Projections of the indexing loop -/

theorem indexTerms_documents (e : Engine) (id : String) (ts : List String) :
    (indexTerms e id ts).documents = e.documents := by
  induction ts generalizing e with
  | nil => rfl
  | cons t rest ih => simp [indexTerms, List.foldl_cons] at ih ⊢; exact ih _

theorem indexTerms_doc_metadata (e : Engine) (id : String) (ts : List String) :
    (indexTerms e id ts).doc_metadata = e.doc_metadata := by
  induction ts generalizing e with
  | nil => rfl
  | cons t rest ih => simp [indexTerms, List.foldl_cons] at ih ⊢; exact ih _

theorem indexTerms_term_frequencies (e : Engine) (id : String) (ts : List String) :
    (indexTerms e id ts).term_frequencies = e.term_frequencies := by
  induction ts generalizing e with
  | nil => rfl
  | cons t rest ih => simp [indexTerms, List.foldl_cons] at ih ⊢; exact ih _

theorem indexTerms_doc_lengths (e : Engine) (id : String) (ts : List String) :
    (indexTerms e id ts).doc_lengths = e.doc_lengths := by
  induction ts generalizing e with
  | nil => rfl
  | cons t rest ih => simp [indexTerms, List.foldl_cons] at ih ⊢; exact ih _

theorem indexTerms_stopwords (e : Engine) (id : String) (ts : List String) :
    (indexTerms e id ts).stopwords = e.stopwords := by
  induction ts generalizing e with
  | nil => rfl
  | cons t rest ih => simp [indexTerms, List.foldl_cons] at ih ⊢; exact ih _

theorem indexTerms_doc_frequencies (e : Engine) (id : String) (ts : List String) :
    (indexTerms e id ts).doc_frequencies = ts.foldl bumpCount e.doc_frequencies := by
  induction ts generalizing e with
  | nil => rfl
  | cons t rest ih => simp [indexTerms, List.foldl_cons] at ih ⊢; exact ih _

theorem indexTerms_inverted_index (e : Engine) (id : String) (ts : List String) :
    (indexTerms e id ts).inverted_index = ts.foldl (addPosting id) e.inverted_index := by
  induction ts generalizing e with
  | nil => rfl
  | cons t rest ih => simp [indexTerms, List.foldl_cons] at ih ⊢; exact ih _

/-! ### Count-table fold lemmas -/

theorem lookupD_bumpCount (acc : List (String × Nat)) (t k : String) :
    lookupD (bumpCount acc t) k 0 =
      lookupD acc k 0 + (if k = t then 1 else 0) := by
  by_cases h : k = t
  · subst h; simp [bumpCount, lookupD, lookup_setKey_self]
  · simp [bumpCount, lookupD, lookup_setKey_ne _ _ _ _ h, h]

theorem lookupD_foldl_bumpCount (ts : List String) (acc : List (String × Nat))
    (k : String) :
    lookupD (ts.foldl bumpCount acc) k 0 = lookupD acc k 0 + ts.count k := by
  induction ts generalizing acc with
  | nil => simp
  | cons t rest ih =>
    simp only [List.foldl_cons, ih, lookupD_bumpCount, List.count_cons]
    by_cases h : k = t
    · subst h; simp
      omega
    · simp [h, Ne.symm h]

theorem sum_values_bumpCount (acc : List (String × Nat)) (t : String) :
    ((bumpCount acc t).map Prod.snd).sum = (acc.map Prod.snd).sum + 1 := by
  induction acc with
  | nil => simp [bumpCount, setKey, lookupD, lookup]
  | cons p rest ih =>
    obtain ⟨k₀, w⟩ := p
    by_cases h : k₀ = t
    · subst h
      simp [bumpCount, setKey, lookupD, lookup]
      omega
    · have hl : lookupD ((k₀, w) :: rest) t 0 = lookupD rest t 0 := by
        simp [lookupD, lookup, h]
      have hs : bumpCount ((k₀, w) :: rest) t = (k₀, w) :: bumpCount rest t := by
        simp [bumpCount, setKey, h, hl]
      rw [hs]
      simp only [List.map_cons, List.sum_cons, ih]
      omega

theorem sum_values_foldl_bumpCount (ts : List String) (acc : List (String × Nat)) :
    ((ts.foldl bumpCount acc).map Prod.snd).sum = (acc.map Prod.snd).sum + ts.length := by
  induction ts generalizing acc with
  | nil => simp
  | cons t rest ih =>
    simp only [List.foldl_cons, ih, sum_values_bumpCount, List.length_cons]
    omega

theorem counter_sum_values (ts : List String) :
    ((counter ts).map Prod.snd).sum = ts.length := by
  simpa [counter] using sum_values_foldl_bumpCount ts []

theorem mem_keys_bumpCount (acc : List (String × Nat)) (t a : String) :
    a ∈ (bumpCount acc t).map Prod.fst ↔ a = t ∨ a ∈ acc.map Prod.fst :=
  mem_keys_setKey _ _ _ _

theorem mem_keys_foldl_bumpCount (ts : List String) (acc : List (String × Nat))
    (a : String) :
    a ∈ (ts.foldl bumpCount acc).map Prod.fst ↔ a ∈ acc.map Prod.fst ∨ a ∈ ts := by
  induction ts generalizing acc with
  | nil => simp
  | cons t rest ih =>
    simp only [List.foldl_cons, ih, mem_keys_bumpCount, List.mem_cons]
    tauto

theorem nodup_keys_foldl_bumpCount (ts : List String) (acc : List (String × Nat))
    (h : (acc.map Prod.fst).Nodup) : (((ts.foldl bumpCount acc)).map Prod.fst).Nodup := by
  induction ts generalizing acc with
  | nil => simpa using h
  | cons t rest ih => exact ih _ (nodup_keys_setKey _ _ _ h)

theorem counter_keys_nodup (ts : List String) : ((counter ts).map Prod.fst).Nodup := by
  simpa [counter] using nodup_keys_foldl_bumpCount ts [] (by simp)

theorem counter_lookup_isSome (ts : List String) (t : String) :
    (lookup (counter ts) t).isSome ↔ t ∈ ts := by
  rw [lookup_isSome_iff]
  simpa [counter] using mem_keys_foldl_bumpCount ts [] t

theorem mem_keys_foldl_addPosting (id : String) (ts : List String)
    (ii : List (String × List String)) (a : String) :
    a ∈ (ts.foldl (addPosting id) ii).map Prod.fst ↔ a ∈ ii.map Prod.fst ∨ a ∈ ts := by
  induction ts generalizing ii with
  | nil => simp
  | cons t rest ih =>
    simp only [List.foldl_cons, ih, addPosting, mem_keys_setKey, List.mem_cons]
    tauto

theorem nodup_keys_foldl_addPosting (id : String) (ts : List String)
    (ii : List (String × List String)) (h : (ii.map Prod.fst).Nodup) :
    ((ts.foldl (addPosting id) ii).map Prod.fst).Nodup := by
  induction ts generalizing ii with
  | nil => simpa using h
  | cons t rest ih => exact ih _ (nodup_keys_setKey _ _ _ h)

/-! ### Normalizer lemmas -/

theorem pySplitAux_token_chars (s : List Char) :
    ∀ (acc : List Char), (∀ c ∈ acc, c.isWhitespace = false) →
      ∀ tok ∈ pySplitAux s acc, ∀ c ∈ tok,
        (c ∈ s ∨ c ∈ acc) ∧ c.isWhitespace = false := by
  induction s with
  | nil =>
    intro acc hacc tok htok c hc
    by_cases h : acc = []
    · subst h; simp [pySplitAux] at htok
    · simp only [pySplitAux, h, if_neg, not_false_iff, List.mem_singleton] at htok
      subst htok
      rw [List.mem_reverse] at hc
      exact ⟨Or.inr hc, hacc c hc⟩
  | cons c0 rest ih =>
    intro acc hacc tok htok c hc
    by_cases hws : c0.isWhitespace
    · simp only [pySplitAux, hws, if_pos] at htok
      by_cases h : acc = []
      · subst h
        simp only [if_pos rfl] at htok
        have := ih [] (by simp) tok htok c hc
        rcases this with ⟨hcm | hcm, hnws⟩
        · exact ⟨Or.inl (List.mem_cons_of_mem _ hcm), hnws⟩
        · simp at hcm
      · simp only [h, if_neg, not_false_iff, List.mem_cons] at htok
        rcases htok with rfl | htok
        · rw [List.mem_reverse] at hc
          exact ⟨Or.inr hc, hacc c hc⟩
        · have := ih [] (by simp) tok htok c hc
          rcases this with ⟨hcm | hcm, hnws⟩
          · exact ⟨Or.inl (List.mem_cons_of_mem _ hcm), hnws⟩
          · simp at hcm
    · simp only [pySplitAux, hws, if_neg, not_false_iff] at htok
      have hacc' : ∀ d ∈ c0 :: acc, d.isWhitespace = false := by
        intro d hd
        rcases List.mem_cons.mp hd with rfl | hd
        · simpa using hws
        · exact hacc d hd
      have := ih (c0 :: acc) hacc' tok htok c hc
      rcases this with ⟨hcm | hcm, hnws⟩
      · exact ⟨Or.inl (List.mem_cons_of_mem _ hcm), hnws⟩
      · rcases List.mem_cons.mp hcm with rfl | hcm
        · exact ⟨Or.inl (List.mem_cons_self _ _), hnws⟩
        · exact ⟨Or.inr hcm, hnws⟩

theorem pySplit_token_chars (s : List Char) :
    ∀ tok ∈ pySplit s, ∀ c ∈ tok, c ∈ s ∧ c.isWhitespace = false := by
  intro tok htok c hc
  have := pySplitAux_token_chars s [] (by simp) tok htok c hc
  rcases this with ⟨hm | hm, hnws⟩
  · exact ⟨hm, hnws⟩
  · simp at hm

/-! ### Concrete engines for the failing inputs of claims C2 and C3 -/

/-- Index doc1, then re-add doc1 under the same identifier with fresh content. -/
def e2Readd : Engine :=
  add_document
    (add_document (mkEngine defaultStopwords) "doc1" "python programming" [])
    "doc1" "java script" []

/-- Index only the second content of doc1, as if it had never had the first. -/
def e2Fresh : Engine :=
  add_document (mkEngine defaultStopwords) "doc1" "java script" []

/-- C2 (code bug): re-adding doc1 with new content leaves stale postings
and document-frequency entries for the terms of the old content, so the
index state differs from indexing only the new content.  The source never
retracts the prior contributions of a re-added document. -/
theorem readd_leaves_stale_state :
    lookupD e2Readd.doc_frequencies "python" 0 = 1 ∧
      lookupD e2Fresh.doc_frequencies "python" 0 = 0 ∧
      postingsOf e2Readd "python" = ["doc1"] ∧
      postingsOf e2Fresh "python" = [] ∧
      e2Readd.inverted_index ≠ e2Fresh.inverted_index ∧
      e2Readd.doc_frequencies ≠ e2Fresh.doc_frequencies := by
  refine ⟨?_, ?_, ?_, ?_, ?_, ?_⟩ <;> decide

/-- Index doc1, then re-add doc1 with content sharing the term python. -/
def e3Readd : Engine :=
  add_document
    (add_document (mkEngine defaultStopwords) "doc1" "python code" [])
    "doc1" "python data" []

/-- C3 (code bug): after re-adding doc1, the document frequency of python
is 2 although its postings set holds the single document doc1, violating
the invariant that document_frequency(t) equals the postings cardinality. -/
theorem doc_frequency_exceeds_postings_after_readd :
    lookupD e3Readd.doc_frequencies "python" 0 = 2 ∧
      (postingsOf e3Readd "python").length = 1 := by
  constructor <;> decide

/-- C10: every token produced by the text normalizer consists only of
lowercase ASCII letters and digits, has length greater than 2 and is not a
member of the configured stopword set; the empty input yields the empty
token sequence. -/
theorem normalizer_tokens_wellformed :
    (∀ (sw : List String) (text : String) (tok : String),
        tok ∈ preprocess_text sw text →
          (∀ c ∈ tok.data, ('a' ≤ c ∧ c ≤ 'z') ∨ ('0' ≤ c ∧ c ≤ '9')) ∧
            2 < tok.length ∧ tok ∉ sw) ∧
      ∀ sw : List String, preprocess_text sw "" = [] := by
  constructor
  · intro sw text tok htok
    simp only [preprocess_text, List.mem_filter, Bool.and_eq_true, decide_eq_true_eq] at htok
    obtain ⟨hmem, hsw, hlen⟩ := htok
    refine ⟨?_, hlen, hsw⟩
    rw [List.mem_map] at hmem
    obtain ⟨w, hw, rfl⟩ := hmem
    intro c hc
    have hc' : c ∈ w := hc
    obtain ⟨hmemc, hnws⟩ := pySplit_token_chars _ w hw c hc'
    rw [List.mem_map] at hmemc
    obtain ⟨c₀, _, hc0⟩ := hmemc
    by_cases hk : isKept c₀
    · rw [if_pos hk] at hc0
      subst hc0
      unfold isKept at hk
      simp only [Bool.or_eq_true, Bool.and_eq_true, decide_eq_true_eq] at hk
      rcases hk with (⟨h1, h2⟩ | ⟨h1, h2⟩) | hws
      · exact Or.inl ⟨h1, h2⟩
      · exact Or.inr ⟨h1, h2⟩
      · rw [hws] at hnws
        cases hnws
    · rw [if_neg hk] at hc0
      subst hc0
      simp at hnws
  · intro sw
    rfl

/-- Witness for C10 at a concrete input: the token python produced from a
mixed-case punctuated text satisfies all four properties. -/
theorem normalizer_tokens_wellformed_witness :
    ("python" ∈ preprocess_text defaultStopwords "Python is great!") ∧
      ((∀ c ∈ "python".data, ('a' ≤ c ∧ c ≤ 'z') ∨ ('0' ≤ c ∧ c ≤ '9')) ∧
        2 < "python".length ∧ "python" ∉ defaultStopwords) :=
  ⟨by decide, normalizer_tokens_wellformed.1 defaultStopwords "Python is great!" "python"
    (by decide)⟩

/-! ### Single-document corpora: every TF-IDF score is zero -/

theorem single_doc_tfidf_zero (sw : List String) (id content : String) (m : Metadata)
    (t d : String) :
    calculate_tf_idf (add_document (mkEngine sw) id content m) t d = 0 := by
  have htfs : (add_document (mkEngine sw) id content m).term_frequencies
      = [(id, counter (preprocess_text sw content))] := by
    simp [add_document, indexTerms_term_frequencies, mkEngine, setKey]
  have hdocs : (add_document (mkEngine sw) id content m).documents = [(id, content)] := by
    simp [add_document, indexTerms_documents, mkEngine, setKey]
  have hdffold : (add_document (mkEngine sw) id content m).doc_frequencies
      = (preprocess_text sw content).dedup.foldl bumpCount [] := by
    simp [add_document, indexTerms_doc_frequencies, mkEngine]
  have hdf : ∀ u : String,
      lookupD (add_document (mkEngine sw) id content m).doc_frequencies u 0
        = (preprocess_text sw content).dedup.count u := by
    intro u
    rw [hdffold, lookupD_foldl_bumpCount]
    simp [lookupD, lookup]
  unfold calculate_tf_idf
  by_cases h0 : lookup (add_document (mkEngine sw) id content m).term_frequencies d = none
      ∨ lookup (lookupD (add_document (mkEngine sw) id content m).term_frequencies d []) t
          = none
  · rw [if_pos h0]
  · rw [if_neg h0]
    push_neg at h0
    obtain ⟨h1, h2⟩ := h0
    have hid : id = d := by
      by_contra hne
      apply h1
      rw [htfs]
      simp [lookup, hne]
    subst hid
    have htbl : lookupD (add_document (mkEngine sw) id content m).term_frequencies id []
        = counter (preprocess_text sw content) := by
      rw [htfs]
      simp [lookupD, lookup]
    rw [htbl] at h2
    have hmem : t ∈ preprocess_text sw content := by
      rw [← counter_lookup_isSome]
      exact Option.ne_none_iff_isSome.mp h2
    have hcount : (preprocess_text sw content).dedup.count t = 1 := by
      have hle : (preprocess_text sw content).dedup.count t ≤ 1 :=
        List.nodup_iff_count_le_one.mp (List.nodup_dedup _) t
      have hpos : 0 < (preprocess_text sw content).dedup.count t := by
        rw [List.count_pos_iff]
        exact List.mem_dedup.mpr hmem
      omega
    rw [hdf t, hcount, hdocs]
    norm_num [Real.log_one]

/-- C7: in a corpus with exactly one indexed document, OR-mode and
AND-mode searches return the empty sequence for every query: the inverse
document frequency of every term present is ln(1/1) = 0, so every
aggregate score is zero, and documents with non-positive score are
excluded. -/
theorem single_doc_search_empty (sw : List String) (id content : String) (m : Metadata)
    (q : String) (k : Int) :
    search (add_document (mkEngine sw) id content m) q "OR" k = [] ∧
      search (add_document (mkEngine sw) id content m) q "AND" k = [] := by
  have hsum : ∀ (qts : List String) (d : String),
      tfSum (add_document (mkEngine sw) id content m) qts d = 0 := by
    intro qts d
    rw [tfSum]
    apply List.sum_eq_zero
    intro x hx
    rw [List.mem_map] at hx
    obtain ⟨t, _, rfl⟩ := hx
    exact single_doc_tfidf_zero sw id content m t d
  have hscore : ∀ (qts cands : List String),
      scoreResults (add_document (mkEngine sw) id content m) qts cands = [] :=
    fun qts cands => scoreResults_eq_nil _ _ _ (fun d _ => hsum qts d)
  constructor <;>
  · simp only [search]
    by_cases hq :
        preprocess_text (add_document (mkEngine sw) id content m).stopwords q = []
    · simp [hq]
    · simp [hq, hscore, sortDesc_nil, pyTake_nil]

/-! ### Unfolding search by mode -/

theorem search_nil_query (e : Engine) (q mode : String) (k : Int)
    (hq : preprocess_text e.stopwords q = []) : search e q mode k = [] := by
  simp only [search, hq]
  simp

theorem search_AND_eq (e : Engine) (q : String) (k : Int) (qts : List String)
    (hq : preprocess_text e.stopwords q = qts) (hne : qts ≠ []) :
    search e q "AND" k
      = pyTake k (sortDesc (scoreResults e qts (andCandidates e qts))) := by
  simp only [search, hq]
  rw [if_neg hne]
  simp

theorem search_OR_eq (e : Engine) (q : String) (k : Int) (qts : List String)
    (hq : preprocess_text e.stopwords q = qts) (hne : qts ≠ []) :
    search e q "OR" k
      = pyTake k (sortDesc (scoreResults e qts (orCandidates e qts))) := by
  simp only [search, hq]
  rw [if_neg hne, if_neg (by decide), if_neg (by decide)]

theorem search_PHRASE_eq (e : Engine) (q : String) (k : Int) (qts : List String)
    (hq : preprocess_text e.stopwords q = qts) (hne : qts ≠ []) :
    search e q "PHRASE" k = pyTake k (sortDesc (phraseHits e q)) := by
  simp only [search, phrase_search, hq]
  rw [if_neg hne, if_neg (by decide)]
  simp

theorem fullResults_OR_eq (e : Engine) (q : String) (qts : List String)
    (hq : preprocess_text e.stopwords q = qts) (hne : qts ≠ []) :
    fullResults e q "OR" = sortDesc (scoreResults e qts (orCandidates e qts)) := by
  simp only [fullResults, hq]
  rw [if_neg hne, if_neg (by decide), if_neg (by decide)]

theorem fullResults_PHRASE_eq (e : Engine) (q : String) (qts : List String)
    (hq : preprocess_text e.stopwords q = qts) (hne : qts ≠ []) :
    fullResults e q "PHRASE" = sortDesc (phraseHits e q) := by
  simp only [fullResults, hq]
  rw [if_neg hne, if_neg (by decide)]
  simp

/-! ### Claim C6: result truncation -/

/-- Two-document corpus giving two phrase candidates with distinct scores. -/
def e6 : Engine :=
  add_document (add_document (mkEngine defaultStopwords) "d1" "xyz abc" []) "d2" "abc" []

theorem phraseHits_e6 : phraseHits e6 "abc" = [("d1", (1:ℝ)/2, []), ("d2", (1:ℝ), [])] := by
  have hd : e6.documents = [("d1", "xyz abc"), ("d2", "abc")] := rfl
  have h1 : pyCount (List.map Char.toLower "xyz abc".data)
      (List.map Char.toLower "abc".data) = 1 := by decide
  have h2 : pyCount (List.map Char.toLower "abc".data)
      (List.map Char.toLower "abc".data) = 1 := by decide
  have h3 : (pySplit "xyz abc".data).length = 2 := by decide
  have h4 : (pySplit "abc".data).length = 1 := by decide
  have h5 : metaOf e6 "d1" = [] := rfl
  have h6 : metaOf e6 "d2" = [] := rfl
  rw [phraseHits, hd]
  simp only [List.filterMap_cons, List.filterMap_nil, h1, h2, h3, h4, h5, h6]
  norm_num

theorem sortDesc_e6pair :
    sortDesc [("d1", (1:ℝ)/2, []), ("d2", (1:ℝ), [])]
      = [("d2", (1:ℝ), []), ("d1", (1:ℝ)/2, [])] := by
  simp only [sortDesc, List.foldl_cons, List.foldl_nil, insertDesc]
  norm_num

theorem fullResults_e6 :
    fullResults e6 "abc" "PHRASE" = [("d2", (1:ℝ), []), ("d1", (1:ℝ)/2, [])] := by
  rw [fullResults_PHRASE_eq e6 "abc" ["abc"] rfl (by simp), phraseHits_e6, sortDesc_e6pair]

theorem search_e6_neg : search e6 "abc" "PHRASE" (-1) = [("d2", (1:ℝ), [])] := by
  rw [search_PHRASE_eq e6 "abc" (-1) ["abc"] rfl (by simp)]
  rw [phraseHits_e6, sortDesc_e6pair]
  norm_num [pyTake]

/-- C6 counterexample: with two phrase candidates, top_k = -1 returns the
top candidate (Python slice semantics drops only the last element), not
the empty sequence the claim requires for every top_k at most 0. -/
theorem negative_top_k_not_empty : search e6 "abc" "PHRASE" (-1) ≠ [] := by
  rw [search_e6_neg]
  simp

/-- C6 (amended): search truncates the sorted candidate list with Python
slice semantics: the result is the slice of the untruncated candidate list
up to top_k, top_k = 0 yields the empty sequence, and top_k at least the
candidate count yields the full sorted candidate sequence.  A negative
top_k instead drops the last -top_k candidates. -/
theorem search_truncation (e : Engine) (q mode : String) (k : Int) :
    search e q mode k = pyTake k (fullResults e q mode) ∧
      search e q mode 0 = [] ∧
      (((fullResults e q mode).length : Int) ≤ k →
        search e q mode k = fullResults e q mode) := by
  have main : ∀ j : Int, search e q mode j = pyTake j (fullResults e q mode) := by
    intro j
    simp only [search, fullResults, phrase_search]
    by_cases hq : preprocess_text e.stopwords q = []
    · simp [hq, pyTake_nil]
    · rw [if_neg hq, if_neg hq]
      by_cases h1 : mode = "AND"
      · simp [h1]
      · by_cases h2 : mode = "PHRASE" <;> simp [h1, h2]
  exact ⟨main k, by rw [main 0, pyTake_zero],
    fun hk => by rw [main k, pyTake_of_length_le _ _ hk]⟩

/-- Witness for C6 at a concrete corpus: the candidate count is 2, so
top_k = 10 returns the full sorted candidate sequence. -/
theorem search_truncation_witness :
    ((fullResults e6 "abc" "PHRASE").length : Int) ≤ 10 ∧
      search e6 "abc" "PHRASE" 10 = fullResults e6 "abc" "PHRASE" :=
  ⟨by rw [fullResults_e6]; simp,
   (search_truncation e6 "abc" "PHRASE" 10).2.2 (by rw [fullResults_e6]; simp)⟩

/-! ### Claim C4: phrase search -/

/-- The single-document corpus of the phrase-search scenario. -/
def e4 : Engine :=
  add_document (mkEngine defaultStopwords) "doc1" "python is a programming language" []

/-- C4 counterexample: the phrase query is a normalizes to no tokens (both
words are stopwords), and the empty-normalization guard runs before the
mode dispatch, so the PHRASE search returns the empty sequence rather than
doc1 with score 1/5. -/
theorem phrase_stopword_query_empty :
    search e4 "is a" "PHRASE" 10 = [] ∧
      ("doc1", (1:ℝ)/5, ([] : Metadata)) ∉ search e4 "is a" "PHRASE" 10 := by
  have h : search e4 "is a" "PHRASE" 10 = [] :=
    search_nil_query e4 "is a" "PHRASE" 10 rfl
  exact ⟨h, by rw [h]; simp⟩

theorem phraseHits_e4 :
    phraseHits e4 "a programming" = [("doc1", (1:ℝ)/5, [])] := by
  have hd : e4.documents = [("doc1", "python is a programming language")] := rfl
  have h1 : pyCount (List.map Char.toLower "python is a programming language".data)
      (List.map Char.toLower "a programming".data) = 1 := by decide
  have h2 : (pySplit "python is a programming language".data).length = 5 := by decide
  have h3 : metaOf e4 "doc1" = [] := rfl
  rw [phraseHits, hd]
  simp only [List.filterMap_cons, List.filterMap_nil, h1, h2, h3]
  norm_num

/-- C4 (amended): a PHRASE query is first passed through the
empty-normalization guard; a query that retains at least one token (here
a programming, which keeps programming) reaches the phrase matcher, which
counts literal occurrences of the raw lowercased query string and scores
occurrences divided by the whitespace word count: 1/5 for doc1. -/
theorem phrase_search_literal_substring :
    search e4 "a programming" "PHRASE" 10 = [("doc1", (1:ℝ)/5, [])] := by
  rw [search_PHRASE_eq e4 "a programming" 10 ["programming"] rfl (by simp)]
  rw [phraseHits_e4, sortDesc_singleton, pyTake_of_length_le _ _ (by simp)]

/-! ### Claim C1: the AND scenario on the two-document corpus -/

/-- If a term occurs in every indexed document, its inverse document
frequency is ln(N/N) = 0 and its TF-IDF vanishes for every document. -/
theorem tfidf_zero_of_df_eq_numdocs (e : Engine) (t d : String)
    (h : lookupD e.doc_frequencies t 0 = e.documents.length) :
    calculate_tf_idf e t d = 0 := by
  unfold calculate_tf_idf
  by_cases hA : lookup e.term_frequencies d = none
      ∨ lookup (lookupD e.term_frequencies d []) t = none
  · rw [if_pos hA]
  · rw [if_neg hA]
    by_cases hB : lookupD e.doc_frequencies t 0 = 0
    · rw [if_pos hB]
    · rw [if_neg hB]
      rw [h, div_self, Real.log_one, mul_zero]
      exact_mod_cast fun h0 => hB (by omega)

/-- The two-document scenario corpus of claims C1 and C4. -/
def e1 : Engine :=
  add_document
    (add_document (mkEngine defaultStopwords) "doc1" "python is a programming language" [])
    "doc2" "java is a programming language" []

theorem e1_and_search_nil (k : Int) :
    search e1 "programming language" "AND" k = [] := by
  rw [search_AND_eq e1 "programming language" k ["programming", "language"] rfl (by simp)]
  have hcand : andCandidates e1 ["programming", "language"] = ["doc1", "doc2"] := rfl
  rw [hcand]
  have hzero : ∀ d ∈ (["doc1", "doc2"] : List String),
      tfSum e1 ["programming", "language"] d = 0 := by
    intro d _
    rw [tfSum]
    apply List.sum_eq_zero
    intro x hx
    rw [List.mem_map] at hx
    obtain ⟨t, ht, rfl⟩ := hx
    have ht' : t = "programming" ∨ t = "language" := by simpa using ht
    rcases ht' with rfl | rfl
    · exact tfidf_zero_of_df_eq_numdocs e1 _ d (by decide)
    · exact tfidf_zero_of_df_eq_numdocs e1 _ d (by decide)
  rw [scoreResults_eq_nil e1 _ _ hzero, sortDesc_nil, pyTake_nil]

/-- C1 counterexample: doc1 is not among the results of the AND search for
programming language on the scenario corpus, although the claim says both
doc1 and doc2 are returned. -/
theorem and_common_terms_doc1_absent :
    "doc1" ∉ (search e1 "programming language" "AND" 10).map Prod.fst := by
  rw [e1_and_search_nil 10]
  simp

/-- C1 (amended): on the scenario corpus the AND search for programming
language returns the empty sequence for every top_k: both documents match
both terms, but each query term occurs in all 2 documents, so its idf is
ln(2/2) = 0, every aggregate score is 0, and documents with non-positive
score are excluded. -/
theorem and_common_terms_returns_empty (k : Int) :
    search e1 "programming language" "AND" k = [] :=
  e1_and_search_nil k

/-! ### Claims C5 and C8: score composition and mode containment -/

/-- Two-document corpus where python occurs only in d1, giving it a
strictly positive idf. -/
def e8 : Engine := buildEngine [("d1", "python code"), ("d2", "java code")]

theorem tfidf_e8_py_d1 : calculate_tf_idf e8 "python" "d1" = Real.log 2 / 2 := by
  have hA : ¬ (lookup e8.term_frequencies "d1" = none
      ∨ lookup (lookupD e8.term_frequencies "d1" []) "python" = none) := by decide
  have hB : ¬ (lookupD e8.doc_frequencies "python" 0 = 0) := by decide
  unfold calculate_tf_idf
  rw [if_neg hA, if_neg hB]
  have h1 : term_frequency e8 "python" "d1" = 1 := rfl
  have h2 : lookupD e8.doc_lengths "d1" 0 = 2 := rfl
  have h3 : e8.documents.length = 2 := rfl
  have h4 : lookupD e8.doc_frequencies "python" 0 = 1 := rfl
  rw [h1, h2, h3, h4]
  norm_num
  ring

theorem tfSum_e8_single : tfSum e8 ["python"] "d1" = Real.log 2 / 2 := by
  simp [tfSum, tfidf_e8_py_d1]

theorem tfSum_e8_double : tfSum e8 ["python", "python"] "d1" = Real.log 2 := by
  simp [tfSum, tfidf_e8_py_d1]

theorem log2_half_pos : 0 < Real.log 2 / 2 := by
  have := Real.log_pos (by norm_num : (1:ℝ) < 2)
  linarith

theorem e8_or_double_search :
    search e8 "python python" "OR" 10 = [("d1", Real.log 2, [])] := by
  rw [search_OR_eq e8 "python python" 10 ["python", "python"] rfl (by simp)]
  have hcand : orCandidates e8 ["python", "python"] = ["d1"] := rfl
  have hm : metaOf e8 "d1" = [] := rfl
  rw [hcand, scoreResults_cons,
    if_pos (by rw [tfSum_e8_double]; exact Real.log_pos (by norm_num)),
    tfSum_e8_double, scoreResults_nil, hm, sortDesc_singleton,
    pyTake_of_length_le _ _ (by simp)]

/-- A member of a ranked OR/AND result list carries exactly the aggregate
TF-IDF score of its document over the query-term list. -/
theorem score_eq_tfSum_of_mem (e : Engine) (qts : List String) (cands : List String)
    (k : Int) (d : String) (s : ℝ) (m : Metadata)
    (h : (d, s, m) ∈ pyTake k (sortDesc (scoreResults e qts cands))) :
    s = tfSum e qts d := by
  have h1 := mem_of_mem_pyTake h
  rw [mem_sortDesc, mem_scoreResults] at h1
  obtain ⟨d₀, _, _, heq⟩ := h1
  rw [Prod.mk.injEq] at heq
  obtain ⟨rfl, heq2⟩ := heq
  rw [Prod.mk.injEq] at heq2
  exact heq2.1

/-- C5 (amended): in every OR-mode or AND-mode search, the returned score
of a document is the sum of tf-idf over the normalized query token list
with multiplicity: a repeated query term contributes once per occurrence,
not once per distinct term. -/
theorem search_score_sums_token_list (e : Engine) (q : String) (k : Int)
    (d : String) (s : ℝ) (m : Metadata)
    (h : (d, s, m) ∈ search e q "OR" k ∨ (d, s, m) ∈ search e q "AND" k) :
    s = ((preprocess_text e.stopwords q).map (fun t => calculate_tf_idf e t d)).sum := by
  by_cases hq : preprocess_text e.stopwords q = []
  · rcases h with h | h <;>
    · rw [search_nil_query e q _ k hq] at h
      simp at h
  · rcases h with h | h
    · rw [search_OR_eq e q k _ rfl hq] at h
      exact score_eq_tfSum_of_mem e _ _ k d s m h
    · rw [search_AND_eq e q k _ rfl hq] at h
      exact score_eq_tfSum_of_mem e _ _ k d s m h

/-- Witness for C5: the result entry of d1 for the query python python has
the score predicted by the list-with-multiplicity sum, namely ln 2. -/
theorem search_score_sums_token_list_witness :
    (("d1", Real.log 2, ([] : Metadata)) ∈ search e8 "python python" "OR" 10) ∧
      Real.log 2 = ((preprocess_text e8.stopwords "python python").map
        (fun t => calculate_tf_idf e8 t "d1")).sum := by
  have hmem : ("d1", Real.log 2, ([] : Metadata)) ∈ search e8 "python python" "OR" 10 := by
    rw [e8_or_double_search]
    simp
  exact ⟨hmem,
    search_score_sums_token_list e8 "python python" 10 "d1" (Real.log 2) [] (Or.inl hmem)⟩

/-- C5 counterexample: for the query python python the engine returns d1
with score ln 2 (each occurrence of the repeated token contributes),
whereas the sum over the distinct normalized query terms is ln 2 / 2, so
the claimed per-document score formula over distinct terms fails. -/
theorem repeated_term_score_not_distinct_sum :
    (search e8 "python python" "OR" 10).map (fun r => r.2.1) = [Real.log 2] ∧
      ((preprocess_text e8.stopwords "python python").dedup.map
          (fun t => calculate_tf_idf e8 t "d1")).sum = Real.log 2 / 2 ∧
      Real.log 2 ≠ Real.log 2 / 2 := by
  refine ⟨by rw [e8_or_double_search]; rfl, ?_, ?_⟩
  · have hd : (preprocess_text e8.stopwords "python python").dedup = ["python"] := by decide
    rw [hd]
    simp [tfidf_e8_py_d1]
  · have hpos : 0 < Real.log 2 := Real.log_pos (by norm_num)
    intro hcontra
    linarith

/-- C8: every document id returned by an AND search also appears among the
OR results for the same query once the OR top_k is at least the OR
candidate count, i.e. with an unbounded top_k. -/
theorem and_ids_subset_or_ids (e : Engine) (q : String) (k K : Int)
    (hK : ((fullResults e q "OR").length : Int) ≤ K) (d : String)
    (hd : d ∈ (search e q "AND" k).map Prod.fst) :
    d ∈ (search e q "OR" K).map Prod.fst := by
  by_cases hq : preprocess_text e.stopwords q = []
  · rw [search_nil_query e q "AND" k hq] at hd
    simp at hd
  · rw [search_AND_eq e q k _ rfl hq] at hd
    rw [search_OR_eq e q K _ rfl hq]
    rw [List.mem_map] at hd
    obtain ⟨x, hx, hxd⟩ := hd
    have hx1 := mem_of_mem_pyTake hx
    rw [mem_sortDesc, mem_scoreResults] at hx1
    obtain ⟨d₀, hdc, hpos, rfl⟩ := hx1
    rw [mem_andCandidates] at hdc
    obtain ⟨-, hall⟩ := hdc
    obtain ⟨t, ht⟩ := List.exists_mem_of_ne_nil _ hq
    have hor : d₀ ∈ orCandidates e (preprocess_text e.stopwords q) :=
      (mem_orCandidates _ _ _).mpr ⟨t, ht, hall t ht⟩
    have hmem2 : (d₀, tfSum e (preprocess_text e.stopwords q) d₀, metaOf e d₀)
        ∈ sortDesc (scoreResults e (preprocess_text e.stopwords q)
            (orCandidates e (preprocess_text e.stopwords q))) := by
      rw [mem_sortDesc, mem_scoreResults]
      exact ⟨d₀, hor, hpos, rfl⟩
    have hfull : fullResults e q "OR"
        = sortDesc (scoreResults e (preprocess_text e.stopwords q)
            (orCandidates e (preprocess_text e.stopwords q))) :=
      fullResults_OR_eq e q _ rfl hq
    rw [pyTake_of_length_le K _ (by rw [← hfull]; exact hK)]
    rw [List.mem_map]
    exact ⟨_, hmem2, hxd⟩

theorem e8_and_search : search e8 "python" "AND" 10 = [("d1", Real.log 2 / 2, [])] := by
  have hcand : andCandidates e8 ["python"] = ["d1"] := rfl
  have hm : metaOf e8 "d1" = [] := rfl
  rw [search_AND_eq e8 "python" 10 ["python"] rfl (by simp), hcand]
  rw [scoreResults_cons, if_pos (by rw [tfSum_e8_single]; exact log2_half_pos)]
  rw [tfSum_e8_single, hm, scoreResults_nil, sortDesc_singleton]
  rw [pyTake_of_length_le _ _ (by simp)]

theorem e8_or_full : fullResults e8 "python" "OR" = [("d1", Real.log 2 / 2, [])] := by
  have hcand : orCandidates e8 ["python"] = ["d1"] := rfl
  have hm : metaOf e8 "d1" = [] := rfl
  rw [fullResults_OR_eq e8 "python" ["python"] rfl (by simp), hcand]
  rw [scoreResults_cons, if_pos (by rw [tfSum_e8_single]; exact log2_half_pos)]
  rw [tfSum_e8_single, hm, scoreResults_nil, sortDesc_singleton]

/-- Witness for C8: on the two-document corpus the AND search for python
returns d1, and d1 indeed appears among the OR results. -/
theorem and_ids_subset_or_ids_witness :
    ((fullResults e8 "python" "OR").length : Int) ≤ 10 ∧
      "d1" ∈ (search e8 "python" "AND" 10).map Prod.fst ∧
      "d1" ∈ (search e8 "python" "OR" 10).map Prod.fst := by
  have hlen : ((fullResults e8 "python" "OR").length : Int) ≤ 10 := by
    rw [e8_or_full]
    simp
  have hmem : "d1" ∈ (search e8 "python" "AND" 10).map Prod.fst := by
    rw [e8_and_search]
    simp
  exact ⟨hlen, hmem, and_ids_subset_or_ids e8 "python" 10 10 hlen "d1" hmem⟩

/-! ### Claim C9: vocabulary-wide term-frequency sums -/

/-- Summing a count table's lookups over a duplicate-free list covering all
of its keys yields the sum of its values. -/
theorem sum_lookupD_eq_sum_values :
    ∀ (tbl : List (String × Nat)) (V : List String),
      (tbl.map Prod.fst).Nodup → V.Nodup →
      (∀ t, (lookup tbl t).isSome → t ∈ V) →
      (V.map (fun t => lookupD tbl t 0)).sum = (tbl.map Prod.snd).sum := by
  intro tbl
  induction tbl with
  | nil =>
    intro V _ _ _
    simp [lookupD, lookup]
  | cons p rest ih =>
    obtain ⟨k, v⟩ := p
    intro V hn hV hsub
    have hn' : (k :: rest.map Prod.fst).Nodup := by simpa using hn
    have hkrest : k ∉ rest.map Prod.fst := (List.nodup_cons.mp hn').1
    have hnr : (rest.map Prod.fst).Nodup := (List.nodup_cons.mp hn').2
    have hkV : k ∈ V := hsub k (by simp [lookup])
    obtain ⟨V₁, V₂, rfl⟩ := List.append_of_mem hkV
    have hmid := List.nodup_middle.mp hV
    have hkNot : k ∉ V₁ ++ V₂ := (List.nodup_cons.mp hmid).1
    have hV' : (V₁ ++ V₂).Nodup := (List.nodup_cons.mp hmid).2
    have hpt : ∀ t ∈ V₁ ++ V₂, lookupD ((k, v) :: rest) t 0 = lookupD rest t 0 := by
      intro t htm
      have hne : k ≠ t := fun h => hkNot (h ▸ htm)
      simp [lookupD, lookup, hne]
    have hsub' : ∀ t, (lookup rest t).isSome → t ∈ V₁ ++ V₂ := by
      intro t hs
      have htk : t ≠ k := by
        intro h
        subst h
        exact hkrest ((lookup_isSome_iff rest t).mp hs)
      have hcons : (lookup ((k, v) :: rest) t).isSome := by
        simpa [lookup, Ne.symm htk] using hs
      have hm := hsub t hcons
      rw [List.mem_append] at hm ⊢
      rcases hm with hm | hm
      · exact Or.inl hm
      · rcases List.mem_cons.mp hm with h | hm
        · exact absurd h htk
        · exact Or.inr hm
    have hIH := ih (V₁ ++ V₂) hnr hV' hsub'
    rw [List.map_append, List.sum_append] at hIH
    rw [List.map_append, List.sum_append, List.map_cons, List.sum_cons]
    have hfk : lookupD ((k, v) :: rest) k 0 = v := by simp [lookupD, lookup]
    rw [hfk]
    have h1 : (V₁.map fun t => lookupD ((k, v) :: rest) t 0)
        = V₁.map fun t => lookupD rest t 0 :=
      List.map_congr_left (fun t ht => hpt t (List.mem_append.mpr (Or.inl ht)))
    have h2 : (V₂.map fun t => lookupD ((k, v) :: rest) t 0)
        = V₂.map fun t => lookupD rest t 0 :=
      List.map_congr_left (fun t ht => hpt t (List.mem_append.mpr (Or.inr ht)))
    rw [h1, h2, List.map_cons, List.sum_cons]
    omega

/-- The well-formedness invariant maintained by document insertion: the
vocabulary has distinct keys, every stored document id has a frequency
table, and each table has distinct keys contained in the vocabulary with
counts summing to the stored document length. -/
def IndexWF (e : Engine) : Prop :=
  (e.inverted_index.map Prod.fst).Nodup ∧
    (∀ d, d ∈ e.documents.map Prod.fst → (lookup e.term_frequencies d).isSome) ∧
    ∀ d tbl, lookup e.term_frequencies d = some tbl →
      (tbl.map Prod.fst).Nodup ∧
        (∀ t, (lookup tbl t).isSome → t ∈ e.inverted_index.map Prod.fst) ∧
        (tbl.map Prod.snd).sum = lookupD e.doc_lengths d 0

theorem indexWF_mkEngine (sw : List String) : IndexWF (mkEngine sw) := by
  refine ⟨by simp [mkEngine], ?_, ?_⟩
  · intro d hd
    simp [mkEngine] at hd
  · intro d tbl h
    simp [mkEngine, lookup] at h

theorem indexWF_add (e : Engine) (id c : String) (m : Metadata) (h : IndexWF e) :
    IndexWF (add_document e id c m) := by
  obtain ⟨hvoc, hdocs, htbl⟩ := h
  have hii : (add_document e id c m).inverted_index
      = (preprocess_text e.stopwords c).dedup.foldl (addPosting id) e.inverted_index := by
    simp [add_document, indexTerms_inverted_index]
  have htf : (add_document e id c m).term_frequencies
      = setKey e.term_frequencies id (counter (preprocess_text e.stopwords c)) := by
    simp [add_document, indexTerms_term_frequencies]
  have hdl : (add_document e id c m).doc_lengths
      = setKey e.doc_lengths id (preprocess_text e.stopwords c).length := by
    simp [add_document, indexTerms_doc_lengths]
  have hdoc : (add_document e id c m).documents = setKey e.documents id c := by
    simp [add_document, indexTerms_documents]
  refine ⟨?_, ?_, ?_⟩
  · rw [hii]
    exact nodup_keys_foldl_addPosting _ _ _ hvoc
  · intro d hd
    rw [hdoc, mem_keys_setKey] at hd
    rw [htf]
    by_cases hdi : d = id
    · subst hdi
      rw [lookup_setKey_self]
      simp
    · rw [lookup_setKey_ne _ _ _ _ hdi]
      rcases hd with rfl | hd
      · exact absurd rfl hdi
      · exact hdocs d hd
  · intro d tbl htb
    rw [htf] at htb
    by_cases hdi : d = id
    · subst hdi
      rw [lookup_setKey_self] at htb
      injection htb with hh
      subst hh
      refine ⟨counter_keys_nodup _, ?_, ?_⟩
      · intro t hts
        have htm : t ∈ preprocess_text e.stopwords c := (counter_lookup_isSome _ _).mp hts
        rw [hii, mem_keys_foldl_addPosting]
        exact Or.inr (List.mem_dedup.mpr htm)
      · rw [counter_sum_values, hdl]
        simp [lookupD, lookup_setKey_self]
    · rw [lookup_setKey_ne _ _ _ _ hdi] at htb
      obtain ⟨hnk, hsubV, hsum⟩ := htbl d tbl htb
      refine ⟨hnk, ?_, ?_⟩
      · intro t hts
        rw [hii, mem_keys_foldl_addPosting]
        exact Or.inl (hsubV t hts)
      · rw [hdl, hsum]
        simp [lookupD, lookup_setKey_ne _ _ _ _ hdi]

theorem indexWF_buildEngine (docs : List (String × String)) :
    IndexWF (buildEngine docs) := by
  rw [buildEngine]
  have haux : ∀ (l : List (String × String)) (e : Engine), IndexWF e →
      IndexWF (l.foldl (fun e p => add_document e p.1 p.2 []) e) := by
    intro l
    induction l with
    | nil => exact fun e he => he
    | cons p rest ih => exact fun e he => ih _ (indexWF_add e p.1 p.2 [] he)
  exact haux docs _ (indexWF_mkEngine defaultStopwords)

/-- C9: after indexing a corpus with pairwise distinct identifiers, for
every indexed document the sum of term_frequency over all vocabulary terms
equals the stored document length. -/
theorem vocab_tf_sum_eq_doc_length (docs : List (String × String))
    (hids : (docs.map Prod.fst).Nodup) (d : String)
    (hd : d ∈ (buildEngine docs).documents.map Prod.fst) :
    sumTF (buildEngine docs) d = lookupD (buildEngine docs).doc_lengths d 0 := by
  obtain ⟨hvoc, hdocs, htbl⟩ := indexWF_buildEngine docs
  have hsome := hdocs d hd
  rw [Option.isSome_iff_exists] at hsome
  obtain ⟨tbl, htblEq⟩ := hsome
  obtain ⟨hnk, hsubV, hsum⟩ := htbl d tbl htblEq
  have hinner : lookupD (buildEngine docs).term_frequencies d [] = tbl := by
    unfold lookupD
    rw [htblEq]
    rfl
  have hterm : ∀ t, term_frequency (buildEngine docs) t d = lookupD tbl t 0 := by
    intro t
    rw [term_frequency, hinner]
  rw [sumTF]
  have hmapeq : (((buildEngine docs).inverted_index.map Prod.fst).map
        (fun t => term_frequency (buildEngine docs) t d))
      = ((buildEngine docs).inverted_index.map Prod.fst).map (fun t => lookupD tbl t 0) :=
    List.map_congr_left (fun t _ => hterm t)
  rw [hmapeq,
    sum_lookupD_eq_sum_values tbl ((buildEngine docs).inverted_index.map Prod.fst)
      hnk hvoc hsubV, hsum]

/-- Witness for C9 on a concrete two-document corpus with distinct ids. -/
theorem vocab_tf_sum_eq_doc_length_witness :
    ((([("doc1", "python code python"), ("doc2", "java code")]
          : List (String × String)).map Prod.fst).Nodup ∧
        "doc1" ∈ (buildEngine
          [("doc1", "python code python"), ("doc2", "java code")]).documents.map Prod.fst) ∧
      sumTF (buildEngine [("doc1", "python code python"), ("doc2", "java code")]) "doc1"
        = lookupD (buildEngine
            [("doc1", "python code python"), ("doc2", "java code")]).doc_lengths "doc1" 0 :=
  ⟨⟨by decide, by decide⟩,
    vocab_tf_sum_eq_doc_length _ (by decide) "doc1" (by decide)⟩
